import Mathlib

/-!
Verification of the MolTx tokenizer (`moltx/tokenizers.py`).

The development shallowly embeds the tokenizer's components:
* `matchAtom` / `findallAux` — the atom-level regex splitter
  (`SmilesAtomwiseTokenizer`);
* `candPairs` / `bpeStep` / `bpeLoop` / `smilesCall` — the BPE merge engine
  (`SmilesTokenizer.__call__`), with the random source modelled as an explicit
  stream of uniform draws `rs : ℕ → ℚ` consumed by index;
* `updateTokensGo` / `moltxNew` / `moltxEncode` — the vocabulary manager and
  the control-tag scanner (`MoltxTokenizer`);
* `pyIndex` / `decodeTokens` — Python list indexing and `decode`;
* `smilesTokenizerNew` — the merge-table loader (`SmilesTokenizer.__init__`),
  with a file modelled as its list of lines.

Python exceptions are modelled with `Option`/`Except`: `none`/`.error` is a
raised exception.  Loops are modelled with explicit fuel equal to the length
of the processed sequence; `bpeLoop_fuel_stable` proves that this fuel is
enough, i.e. that the fueled function agrees with the unbounded while-loop.
-/

/-! ### Atom splitter (`SmilesAtomwiseTokenizer`) -/

/-- Single-letter element alternatives of the splitter regex:
`N|O|S|P|F|I|b|c|n|o|s|p`. -/

def isElementChar (c : Char) : Bool :=
  c = 'N' || c = 'O' || c = 'S' || c = 'P' || c = 'F' || c = 'I' ||
  c = 'b' || c = 'c' || c = 'n' || c = 'o' || c = 's' || c = 'p'

/-- Structural-symbol alternatives of the splitter regex. -/

def isStructuralChar (c : Char) : Bool :=
  c = '(' || c = ')' || c = '.' || c = '=' || c = '#' || c = '-' || c = '+' ||
  c = '\\' || c = '/' || c = ':' || c = '~' || c = '@' || c = '?' || c = '>' ||
  c = '*' || c = '$'

/-- Splits the characters after an opening bracket at the first closing
bracket: returns the content before the first closing bracket and the rest
after it, or `none` when no closing bracket exists.  This is the behaviour of
the greedy sub-pattern of the alternative matching a bracketed group. -/

def bracketSplit : List Char → Option (List Char × List Char)
  | [] => none
  | c :: cs =>
    if c = ']' then some ([], cs)
    else (bracketSplit cs).map (fun p => (c :: p.1, p.2))

/-- One attempt of the splitter regex at a position starting with character
`c`: the alternatives in the priority order of the regex — bracketed group
(nonempty content, up to the first closing bracket), two-letter halogens
(`Br?`, `Cl?`, greedy), percent-prefixed two-digit ring closure,
single-letter elements, structural symbols, single digit. -/

def matchAtomCons (c : Char) (cs : List Char) : Option (List Char × List Char) :=
  if c = '[' then
    match bracketSplit cs with
    | some (content, rest) =>
      if content.isEmpty then none
      else some ('[' :: (content ++ [']']), rest)
    | none => none
  else if c = 'B' then
    match cs with
    | x :: rest => if x = 'r' then some (['B', 'r'], rest) else some (['B'], x :: rest)
    | [] => some (['B'], [])
  else if c = 'C' then
    match cs with
    | x :: rest => if x = 'l' then some (['C', 'l'], rest) else some (['C'], x :: rest)
    | [] => some (['C'], [])
  else if c = '%' then
    match cs with
    | a :: b :: rest => if a.isDigit && b.isDigit then some (['%', a, b], rest) else none
    | _ => none
  else if isElementChar c || isStructuralChar c || c.isDigit then some ([c], cs)
  else none

/-- One attempt of the splitter regex at the current position: returns the
matched token and the remaining characters, or `none` when no alternative
matches here. -/

def matchAtom : List Char → Option (List Char × List Char)
  | [] => none
  | c :: cs => matchAtomCons c cs

/-- The scan of `re.findall`: repeatedly try the pattern at the current
position; on a match emit the token and continue after it, otherwise skip one
character.  The fuel is the number of remaining characters, which suffices
since every step consumes at least one character. -/

def findallAux : ℕ → List Char → List (List Char)
  | 0, _ => []
  | _ + 1, [] => []
  | fuel + 1, c :: cs =>
    match matchAtom (c :: cs) with
    | some (tok, rest) => tok :: findallAux fuel rest
    | none => findallAux fuel cs

/-- Token list produced by the atom splitter on a character list. -/

def atomwiseTokens (cs : List Char) : List (List Char) := findallAux cs.length cs

/-- `SmilesAtomwiseTokenizer.__call__`: regex findall, then — only when the
exclusive list is configured and nonempty (Python truthiness of the list) —
replacement of non-whitelisted bracketed tokens by the unknown marker. -/

def atomwiseCall (exclusive : Option (List String)) (smiles : String) : List String :=
  match exclusive with
  | some ex =>
    if ex.isEmpty then (atomwiseTokens smiles.data).map String.mk
    else ((atomwiseTokens smiles.data).map String.mk).map
      (fun t => if t.startsWith "[" && !(ex.contains t) then "<unk>" else t)
  | none => (atomwiseTokens smiles.data).map String.mk

/-- Modelled from the spec words of the character-preservation property:
the input with the characters covered by no match of the splitter's grammar
removed.  Defined by the same left-to-right scan the regex engine performs:
characters of a match are kept, a character at which no alternative matches is
dropped and the scan resumes at the next character. -/

def removeUnmatchedAux : ℕ → List Char → List Char
  | 0, _ => []
  | _ + 1, [] => []
  | fuel + 1, c :: cs =>
    match matchAtom (c :: cs) with
    | some (tok, rest) => tok ++ removeUnmatchedAux fuel rest
    | none => removeUnmatchedAux fuel cs

/-- The input with the characters matching no alternative of the splitter's
grammar removed. -/

def removeUnmatched (cs : List Char) : List Char := removeUnmatchedAux cs.length cs

/-- Concatenation of a token sequence, as a character list. -/

def strConcat (l : List String) : List Char := (l.map String.data).flatten

/-! ### BPE merge engine (`SmilesTokenizer.__call__`) -/

/-- The candidate list of one pass: for each adjacent pair of tokens, in
position order, the pair is a candidate iff the dropout test passes (dropout
falsy, or the uniform draw for this position exceeds dropout) and the pair is
in the merge table; a candidate is recorded as `(rank, position, pair)`.
`rs` is the stream of uniform draws and `ctr` the index of the next draw. -/

def candPairs (codes : String × String → Option ℕ) (dropout : ℚ) (rs : ℕ → ℚ)
    (ctr : ℕ) : ℕ → List String → List (ℕ × ℕ × (String × String))
  | i, a :: b :: rest =>
    let tail := candPairs codes dropout rs ctr (i + 1) (b :: rest)
    if decide (dropout = 0) || decide (dropout < rs (ctr + i)) then
      match codes (a, b) with
      | some r => (r, i, (a, b)) :: tail
      | none => tail
    else tail
  | _, _ => []

/-- Python's lexicographic comparison of the `(rank, position)` keys (the
pair component of a candidate is never reached, positions being distinct). -/

def keyLt (a b : ℕ × ℕ) : Bool :=
  decide (a.1 < b.1) || (decide (a.1 = b.1) && decide (a.2 < b.2))

/-- The key of a candidate. -/

def pairKey (x : ℕ × ℕ × (String × String)) : ℕ × ℕ := (x.1, x.2.1)

/-- One comparison step of Python's `min`: keep the earlier element unless
the later one is strictly smaller. -/

def pickMin (a b : ℕ × ℕ × (String × String)) : ℕ × ℕ × (String × String) :=
  if keyLt (pairKey b) (pairKey a) then b else a

/-- Python's `min(pairs)`, `none` on an empty list. -/

def minPair : List (ℕ × ℕ × (String × String)) → Option (ℕ × ℕ × (String × String))
  | [] => none
  | x :: xs => some (xs.foldl pickMin x)

/-- The merge pass over the accepted positions of the winning pair: scan the
positions left to right, skip a position that starts before the cursor
(overlap with an already performed merge), otherwise copy the tokens up to
the position, emit the merged token and advance the cursor past the pair;
finally copy the remaining tokens. -/

def applyMerges (tokens : List String) (bigram : String) : List ℕ → ℕ → List String
  | [], i => tokens.drop i
  | j :: js, i =>
    if j < i then applyMerges tokens bigram js i
    else ((tokens.drop i).take (j - i)) ++ bigram :: applyMerges tokens bigram js (j + 2)

/-- One iteration of the while-loop of `SmilesTokenizer.__call__`: build the
candidate list, stop (`none`) if it is empty, otherwise merge every accepted
occurrence of the minimal `(rank, position)` candidate's pair. -/

def bpeStep (codes : String × String → Option ℕ) (dropout : ℚ) (rs : ℕ → ℚ)
    (ctr : ℕ) (tokens : List String) : Option (List String) :=
  match minPair (candPairs codes dropout rs ctr 0 tokens) with
  | none => none
  | some m =>
    some (applyMerges tokens (m.2.2.1 ++ m.2.2.2)
      ((candPairs codes dropout rs ctr 0 tokens).filterMap
        (fun x => if x.2.2 = m.2.2 then some x.2.1 else none)) 0)

/-- The while-loop of `SmilesTokenizer.__call__`, with fuel.  The counter
advances by the number of uniform draws one pass consumes (one per adjacent
pair, none when dropout is falsy since the draw is short-circuited away). -/

def bpeLoop (codes : String × String → Option ℕ) (dropout : ℚ) (rs : ℕ → ℚ) :
    ℕ → List String → ℕ → List String
  | 0, tokens, _ => tokens
  | fuel + 1, tokens, ctr =>
    if 1 < tokens.length then
      match bpeStep codes dropout rs ctr tokens with
      | none => tokens
      | some newTokens =>
        bpeLoop codes dropout rs fuel newTokens
          (ctr + if dropout = 0 then 0 else tokens.length - 1)
    else tokens

/-- `SmilesTokenizer.__call__`: single-character bypass, then atom splitting,
then BPE merging to convergence (the initial token count is enough fuel,
`bpeLoop_fuel_stable`). -/

def smilesCall (exclusive : Option (List String)) (codes : String × String → Option ℕ)
    (dropout : ℚ) (rs : ℕ → ℚ) (smiles : String) : List String :=
  if smiles.length = 1 then [smiles]
  else
    bpeLoop codes dropout rs (atomwiseCall exclusive smiles).length
      (atomwiseCall exclusive smiles) 0

/-! ### Vocabulary manager and tag scanner (`MoltxTokenizer`) -/

/-- ASCII word character, modelling the regex class used by the control-tag
pattern for the inputs considered here. -/

def isWordChar (c : Char) : Bool := c.isAlphanum || c = '_'

/-- Attempt of the control-tag pattern (opening angle bracket, exactly three
word characters, closing angle bracket) at the current position. -/

def matchTag : List Char → Option (List Char × List Char)
  | x :: a :: b :: c :: y :: rest =>
    if x = '<' && isWordChar a && isWordChar b && isWordChar c && y = '>' then
      some ([x, a, b, c, y], rest)
    else none
  | _ => none

/-- `re.search` for the control-tag pattern: the characters before the
leftmost match, the match, and the rest. -/

def findTag : List Char → Option (List Char × List Char × List Char)
  | [] => none
  | c :: cs =>
    match matchTag (c :: cs) with
    | some (tag, rest) => some ([], tag, rest)
    | none => (findTag cs).map (fun p => (c :: p.1, p.2.1, p.2.2))

/-- `MoltxTokenizer.encode`: scan for control tags left to right; each tag is
emitted verbatim, each nonempty gap goes through the SMILES tokenizer.  The
fuel is the number of remaining characters; a tag consumes five of them, so
the fuel never runs out and the zero-fuel branch coincides with the empty
input. -/

def encodeChars (codes : String × String → Option ℕ) (dropout : ℚ) (rs : ℕ → ℚ) :
    ℕ → List Char → List String
  | 0, _ => []
  | fuel + 1, cs =>
    match findTag cs with
    | some (before, tag, rest) =>
      (if before.isEmpty then [] else smilesCall none codes dropout rs (String.mk before)) ++
        (String.mk tag :: encodeChars codes dropout rs fuel rest)
    | none => if cs.isEmpty then [] else smilesCall none codes dropout rs (String.mk cs)

/-- The state of a `MoltxTokenizer`: the ordered token list, the token-to-
identifier table, the capacity, the freeze flag, and the configuration of the
inner SMILES tokenizer (merge-table lookup and dropout). -/

structure MoltxTokenizer where
  tokens : List String
  tokenIdx : List (String × ℕ)
  tokenSize : ℕ
  freeze : Bool
  speCodes : String × String → Option ℕ
  speDropout : ℚ

/-- The loop body of `MoltxTokenizer._update_tokens`: for each token not yet
present, stop the whole call at capacity, otherwise append it with the next
identifier. -/

def updateTokensGo (tokenSize : ℕ) :
    List String → List String → List (String × ℕ) → List String × List (String × ℕ)
  | [], toks, idx => (toks, idx)
  | t :: ts, toks, idx =>
    if (idx.lookup t).isSome then updateTokensGo tokenSize ts toks idx
    else if tokenSize ≤ toks.length then (toks, idx)
    else updateTokensGo tokenSize ts (toks ++ [t]) (idx ++ [(t, toks.length)])

/-- `MoltxTokenizer._update_tokens`: a no-op when frozen. -/

def MoltxTokenizer.updateTokens (tkz : MoltxTokenizer) (ts : List String) : MoltxTokenizer :=
  if tkz.freeze then tkz
  else
    { tkz with
      tokens := (updateTokensGo tkz.tokenSize ts tkz.tokens tkz.tokenIdx).1
      tokenIdx := (updateTokensGo tkz.tokenSize ts tkz.tokens tkz.tokenIdx).2 }

/-- `MoltxTokenizer._load_tokens`: suspend the freeze flag, register, restore
it. -/

def MoltxTokenizer.loadTokens (tkz : MoltxTokenizer) (ts : List String) : MoltxTokenizer :=
  { ({ tkz with freeze := false }.updateTokens ts) with freeze := tkz.freeze }

/-- The `reserved` tuple `(pad, unk, bos, eos, sep, cls)`. -/

def reservedTokens : List String := ["<pad>", "<unk>", "<bos>", "<eos>", "<sep>", "<cls>"]

/-- `MoltxTokenizer.__init__`: empty tables, then `_update_tokens(reserved)`
(which the freeze flag can turn into a no-op). -/

def moltxNew (tokenSize : ℕ) (freeze : Bool) (dropout : ℚ)
    (codes : String × String → Option ℕ) : MoltxTokenizer :=
  (MoltxTokenizer.mk [] [] tokenSize freeze codes dropout).updateTokens reservedTokens

/-- The default value of the `dropout` parameter of `MoltxTokenizer.__init__`
(`1.000000001`). -/

def moltxDefaultDropout : ℚ := 1000000001 / 1000000000

/-- A `MoltxTokenizer` constructed without specifying `dropout`. -/

def moltxNewDefaultDropout (tokenSize : ℕ) (freeze : Bool)
    (codes : String × String → Option ℕ) : MoltxTokenizer :=
  moltxNew tokenSize freeze moltxDefaultDropout codes

/-- `MoltxTokenizer.encode` on a tokenizer state. -/

def moltxEncode (tkz : MoltxTokenizer) (rs : ℕ → ℚ) (s : String) : List String :=
  encodeChars tkz.speCodes tkz.speDropout rs s.data.length s.data

/-- `MoltxTokenizer.__getitem__` with a string key:
`self._token_idx.get(item, self._token_idx[self.unk])`.  The default argument
is evaluated first; a missing unk entry is a `KeyError` (`none`). -/

def MoltxTokenizer.getitemStr (tkz : MoltxTokenizer) (t : String) : Option ℕ :=
  match tkz.tokenIdx.lookup "<unk>" with
  | none => none
  | some unk => some ((tkz.tokenIdx.lookup t).getD unk)

/-- Python list indexing `l[i]` for possibly negative `i`: an index in
`[-len, len)` selects an element (negative indices count from the end),
anything else is an `IndexError` (`none`). -/

def pyIndex (l : List String) (i : ℤ) : Option String :=
  if 0 ≤ i then l.get? i.toNat
  else if 0 ≤ (l.length : ℤ) + i then l.get? ((l.length : ℤ) + i).toNat
  else none

/-- `MoltxTokenizer.__getitem__` with an integer key: `self._tokens[item]`. -/

def MoltxTokenizer.getitemInt (tkz : MoltxTokenizer) (i : ℤ) : Option String :=
  pyIndex tkz.tokens i

/-- The lookups of `MoltxTokenizer.decode`, failing at the first identifier
that is out of range. -/

def decodeTokens (l : List String) : List ℤ → Option (List String)
  | [] => some []
  | i :: is =>
    match pyIndex l i, decodeTokens l is with
    | some t, some ts => some (t :: ts)
    | _, _ => none

/-- `MoltxTokenizer.decode`: look every identifier up and join the tokens. -/

def MoltxTokenizer.decode (tkz : MoltxTokenizer) (idxs : List ℤ) : Option String :=
  (decodeTokens tkz.tokens idxs).map (fun ts => String.mk (strConcat ts))

/-- The registration entry points of a `MoltxTokenizer`: a direct
`_update_tokens` call, an encoding call (`__call__`, whose state effect is
`_update_tokens(self.encode(smiles))`), and a vocabulary load
(`load`/`loads`, whose state effect is `_load_tokens` on the persisted token
list). -/

inductive TkzOp where
  | update (ts : List String)
  | call (s : String)
  | load (ts : List String)

/-- Apply one registration operation to the tokenizer state. -/

def applyOp (rs : ℕ → ℚ) (tkz : MoltxTokenizer) : TkzOp → MoltxTokenizer
  | .update ts => tkz.updateTokens ts
  | .call s => tkz.updateTokens (moltxEncode tkz rs s)
  | .load ts => tkz.loadTokens ts

/-- Apply a sequence of registration operations. -/

def applyOps (rs : ℕ → ℚ) (tkz : MoltxTokenizer) (ops : List TkzOp) : MoltxTokenizer :=
  ops.foldl (applyOp rs) tkz

/-! ### Merge-table loading (`SmilesTokenizer.__init__`) -/

/-- Python `str.strip`. -/

def pyStrip (s : String) : String :=
  String.mk (((s.data.dropWhile Char.isWhitespace).reverse.dropWhile Char.isWhitespace).reverse)

/-- Python `str.split(' ')`: split at every single space, keeping empty
fields. -/

def splitSpaceAux : List Char → List Char → List (List Char)
  | [], acc => [acc.reverse]
  | c :: cs, acc =>
    if c = ' ' then acc.reverse :: splitSpaceAux cs []
    else splitSpaceAux cs (c :: acc)

/-- Python `item.split(' ')` on a string. -/

def pySplitSpace (s : String) : List String := (splitSpaceAux s.data []).map String.mk

/-- The lines retained by the `merges` truncation:
`n < merges or merges == -1` on the enumerated lines. -/

def retainedLines (lines : List String) (merges : ℤ) : List String :=
  (lines.enum.filter (fun p => decide ((p.1 : ℤ) < merges) || decide (merges = -1))).map
    Prod.snd

/-- The `bpe_codes` list comprehension: each retained line stripped and split
on single spaces. -/

def parseCodes (lines : List String) (merges : ℤ) : List (List String) :=
  (retainedLines lines merges).map (fun item => pySplitSpace (pyStrip item))

/-- The validation loop of `SmilesTokenizer.__init__`: index of the first
entry whose field count differs from two. -/

def firstBadLine : List (List String) → Option ℕ
  | [] => none
  | item :: rest =>
    if item.length = 2 then (firstBadLine rest).map (· + 1) else some 0

/-- `SmilesTokenizer.__init__` restricted to its merge-table construction,
the file given as its list of lines.  On a bad line it raises
(`.error (line index, bpe_codes at raise time)` — the table assignment comes
after the loop, so the table is still empty); otherwise it returns the
constructed pair-to-rank table. -/

def smilesTokenizerNew (lines : Option (List String)) (merges : ℤ) :
    Except (ℕ × List ((String × String) × ℕ)) (List ((String × String) × ℕ)) :=
  match lines with
  | none => .ok []
  | some ls =>
    match firstBadLine (parseCodes ls merges) with
    | some i => .error (i, [])
    | none =>
      .ok ((parseCodes ls merges).enum.filterMap
        (fun p => match p.2 with
          | [a, b] => some ((a, b), p.1)
          | _ => none))

/-- The state relation every registration entry point preserves: capacity
and inner configuration are unchanged, the token list only grows, assigned
identifiers persist, and the capacity bound is maintained. -/

def TkzStep (a b : MoltxTokenizer) : Prop :=
  b.tokenSize = a.tokenSize ∧
  (∃ ext, b.tokens = a.tokens ++ ext) ∧
  (∀ t i, a.tokenIdx.lookup t = some i → b.tokenIdx.lookup t = some i) ∧
  (a.tokens.length ≤ a.tokenSize → b.tokens.length ≤ b.tokenSize)

/-! ### Theorems -/

theorem bracketSplit_spec : ∀ {cs content rest : List Char},
    bracketSplit cs = some (content, rest) →
    content ++ ']' :: rest = cs ∧ rest.length < cs.length := by
  intro cs
  induction cs with
  | nil => intro content rest h; simp [bracketSplit] at h
  | cons c cs ih =>
    intro content rest h
    rw [bracketSplit] at h
    by_cases hc : c = ']'
    · rw [if_pos hc] at h
      obtain ⟨rfl, rfl⟩ := Prod.mk.inj (Option.some.inj h)
      subst hc
      simp
    · rw [if_neg hc] at h
      rw [Option.map_eq_some'] at h
      obtain ⟨⟨c1, r1⟩, hbs, hfr⟩ := h
      obtain ⟨rfl, rfl⟩ := Prod.mk.inj hfr
      obtain ⟨ha, hl⟩ := ih hbs
      constructor
      · rw [List.cons_append, ha]
      · simpa using Nat.lt_succ_of_lt hl

theorem matchAtomCons_spec : ∀ {c : Char} {cs tok rest : List Char},
    matchAtomCons c cs = some (tok, rest) →
    tok ++ rest = c :: cs ∧ rest.length < cs.length + 1 := by
  intro c cs tok rest h
  unfold matchAtomCons at h
  by_cases hbra : c = '['
  · rw [if_pos hbra] at h
    rcases hbs : bracketSplit cs with _ | ⟨content, rest'⟩ <;> rw [hbs] at h <;>
      simp only at h
    · exact absurd h (by simp)
    · by_cases hemp : content.isEmpty
      · rw [if_pos hemp] at h; exact absurd h (by simp)
      · rw [if_neg hemp] at h
        obtain ⟨rfl, rfl⟩ := Prod.mk.inj (Option.some.inj h)
        obtain ⟨ha, hl⟩ := bracketSplit_spec hbs
        subst hbra
        constructor
        · rw [List.cons_append, List.append_assoc, List.singleton_append, ha]
        · omega
  · rw [if_neg hbra] at h
    by_cases hB : c = 'B'
    · rw [if_pos hB] at h
      rcases cs with _ | ⟨x, rest'⟩
      · obtain ⟨rfl, rfl⟩ := Prod.mk.inj (Option.some.inj h)
        subst hB; exact ⟨rfl, by first | omega | (simp only [List.length_cons]; omega)⟩
      · simp only at h
        by_cases hx : x = 'r'
        · rw [if_pos hx] at h
          obtain ⟨rfl, rfl⟩ := Prod.mk.inj (Option.some.inj h)
          subst hB; subst hx
          exact ⟨rfl, by first | omega | (simp only [List.length_cons]; omega)⟩
        · rw [if_neg hx] at h
          obtain ⟨rfl, rfl⟩ := Prod.mk.inj (Option.some.inj h)
          subst hB; exact ⟨rfl, by first | omega | (simp only [List.length_cons]; omega)⟩
    · rw [if_neg hB] at h
      by_cases hC : c = 'C'
      · rw [if_pos hC] at h
        rcases cs with _ | ⟨x, rest'⟩
        · obtain ⟨rfl, rfl⟩ := Prod.mk.inj (Option.some.inj h)
          subst hC; exact ⟨rfl, by first | omega | (simp only [List.length_cons]; omega)⟩
        · simp only at h
          by_cases hx : x = 'l'
          · rw [if_pos hx] at h
            obtain ⟨rfl, rfl⟩ := Prod.mk.inj (Option.some.inj h)
            subst hC; subst hx
            exact ⟨rfl, by first | omega | (simp only [List.length_cons]; omega)⟩
          · rw [if_neg hx] at h
            obtain ⟨rfl, rfl⟩ := Prod.mk.inj (Option.some.inj h)
            subst hC; exact ⟨rfl, by first | omega | (simp only [List.length_cons]; omega)⟩
      · rw [if_neg hC] at h
        by_cases hp : c = '%'
        · rw [if_pos hp] at h
          rcases cs with _ | ⟨a, _ | ⟨b, rest'⟩⟩
          · exact absurd h (by simp)
          · exact absurd h (by simp)
          · simp only at h
            by_cases hd : (a.isDigit && b.isDigit) = true
            · rw [if_pos hd] at h
              obtain ⟨rfl, rfl⟩ := Prod.mk.inj (Option.some.inj h)
              subst hp; exact ⟨rfl, by first | omega | (simp only [List.length_cons]; omega)⟩
            · rw [if_neg hd] at h; exact absurd h (by simp)
        · rw [if_neg hp] at h
          by_cases hel : (isElementChar c || isStructuralChar c || c.isDigit) = true
          · rw [if_pos hel] at h
            obtain ⟨rfl, rfl⟩ := Prod.mk.inj (Option.some.inj h)
            exact ⟨rfl, by first | omega | (simp only [List.length_cons]; omega)⟩
          · rw [if_neg hel] at h; exact absurd h (by simp)

theorem matchAtom_spec : ∀ {l tok rest : List Char},
    matchAtom l = some (tok, rest) →
    tok ++ rest = l ∧ rest.length < l.length := by
  intro l tok rest h
  rcases l with _ | ⟨c, cs⟩
  · exact absurd h (by simp [matchAtom])
  · exact matchAtomCons_spec h

/-- The concatenation of the splitter's tokens is exactly the input with the
unmatched characters removed. -/
theorem findallAux_flatten : ∀ (fuel : ℕ) (cs : List Char),
    (findallAux fuel cs).flatten = removeUnmatchedAux fuel cs := by
  intro fuel
  induction fuel with
  | zero => intro cs; rfl
  | succ fuel ih =>
    intro cs
    match cs with
    | [] => rfl
    | c :: cs =>
      rw [findallAux, removeUnmatchedAux]
      match hm : matchAtom (c :: cs) with
      | some (tok, rest) => simp [ih]
      | none => simp [ih]

/-- The kept characters form a subsequence of the input. -/
theorem removeUnmatchedAux_sublist : ∀ (fuel : ℕ) (cs : List Char),
    (removeUnmatchedAux fuel cs).Sublist cs := by
  intro fuel
  induction fuel with
  | zero => intro cs; exact List.nil_sublist cs
  | succ fuel ih =>
    intro cs
    match cs with
    | [] => exact List.Sublist.refl []
    | c :: cs =>
      rw [removeUnmatchedAux]
      match hm : matchAtom (c :: cs) with
      | some (tok, rest) =>
        have hspec := matchAtom_spec hm
        have h1 : (tok ++ removeUnmatchedAux fuel rest).Sublist (tok ++ rest) :=
          List.Sublist.append_left (ih rest) tok
        exact hspec.1 ▸ h1
      | none =>
        exact List.Sublist.trans (ih cs) (List.sublist_cons_self c cs)

theorem strConcat_append (a b : List String) :
    strConcat (a ++ b) = strConcat a ++ strConcat b := by
  simp [strConcat]

theorem strConcat_cons (a : String) (l : List String) :
    strConcat (a :: l) = a.data ++ strConcat l := by
  simp [strConcat]

/-- Every candidate records the pair of tokens actually adjacent at its
position, and its position leaves room for both tokens. -/
theorem candPairs_spec (codes : String × String → Option ℕ) (dropout : ℚ)
    (rs : ℕ → ℚ) (ctr : ℕ) : ∀ (ts : List String) (i0 : ℕ) (x : ℕ × ℕ × (String × String)),
    x ∈ candPairs codes dropout rs ctr i0 ts →
    ∃ k, x.2.1 = i0 + k ∧ k + 2 ≤ ts.length ∧
      ts.get? k = some x.2.2.1 ∧ ts.get? (k + 1) = some x.2.2.2 := by
  intro ts
  induction ts with
  | nil => intro i0 x hx; simp [candPairs] at hx
  | cons a ts ih =>
    intro i0 x hx
    match ts with
    | [] => simp [candPairs] at hx
    | b :: rest =>
      rw [candPairs] at hx
      have step : x ∈ candPairs codes dropout rs ctr (i0 + 1) (b :: rest) ∨
          x = (((codes (a, b)).getD 0), i0, (a, b)) ∧ (codes (a, b)).isSome := by
        by_cases hg : (decide (dropout = 0) || decide (dropout < rs (ctr + i0))) = true
        · rw [if_pos hg] at hx
          match hc : codes (a, b) with
          | some r =>
            rw [hc] at hx
            rcases List.mem_cons.mp hx with h1 | h2
            · right; exact ⟨by simp [h1, hc], by simp [hc]⟩
            · left; exact h2
          | none => rw [hc] at hx; left; exact hx
        · rw [if_neg hg] at hx; left; exact hx
      rcases step with hmem | ⟨hx1, _⟩
      · obtain ⟨k, hk1, hk2, hk3, hk4⟩ := ih (i0 + 1) x hmem
        refine ⟨k + 1, by omega, ?_, ?_, ?_⟩
        · simp only [List.length_cons] at hk2 ⊢; omega
        · simpa using hk3
        · simpa using hk4
      · refine ⟨0, by simp [hx1], by simp only [List.length_cons]; omega, ?_, ?_⟩
        · simp [hx1]
        · simp [hx1]

/-- The result of the fold inside `minPair` is one of the candidates. -/
theorem foldl_pickMin_mem : ∀ (xs : List (ℕ × ℕ × (String × String))) (a : ℕ × ℕ × (String × String)),
    xs.foldl pickMin a = a ∨ xs.foldl pickMin a ∈ xs := by
  intro xs
  induction xs with
  | nil => intro a; left; rfl
  | cons x xs ih =>
    intro a
    rw [List.foldl_cons]
    rcases ih (pickMin a x) with h | h
    · rw [h]
      unfold pickMin
      by_cases hk : keyLt (pairKey x) (pairKey a) = true
      · rw [if_pos hk]; right; exact List.mem_cons_self x xs
      · rw [if_neg hk]; left; rfl
    · right; exact List.mem_cons_of_mem x h

theorem minPair_mem : ∀ {xs : List (ℕ × ℕ × (String × String))} {m : ℕ × ℕ × (String × String)},
    minPair xs = some m → m ∈ xs := by
  intro xs m h
  match xs with
  | [] => simp [minPair] at h
  | x :: xs =>
    rw [minPair] at h
    have hm := Option.some.inj h
    rcases foldl_pickMin_mem xs x with h1 | h1
    · rw [← hm, h1]; exact List.mem_cons_self x xs
    · rw [← hm]; exact List.mem_cons_of_mem x h1

theorem drop_eq_cons_of_get? {α : Type} : ∀ {l : List α} {n : ℕ} {a : α},
    l.get? n = some a → l.drop n = a :: l.drop (n + 1) := by
  intro l
  induction l with
  | nil => intro n a h; simp at h
  | cons x xs ih =>
    intro n a h
    match n with
    | 0 =>
      simp at h
      rw [h]
      simp
    | n + 1 =>
      have := ih (n := n) (a := a) (by simpa using h)
      simpa using this

/-- A merge pass only concatenates the tokens it merges: the concatenation of
the result, from the cursor on, is unchanged. -/
theorem applyMerges_strConcat (tokens : List String) (p1 p2 : String) :
    ∀ (positions : List ℕ) (i : ℕ),
    (∀ j ∈ positions, j + 2 ≤ tokens.length ∧
      tokens.get? j = some p1 ∧ tokens.get? (j + 1) = some p2) →
    strConcat (applyMerges tokens (p1 ++ p2) positions i) = strConcat (tokens.drop i) := by
  intro positions
  induction positions with
  | nil => intro i _; rfl
  | cons j js ih =>
    intro i H
    rw [applyMerges]
    by_cases hji : j < i
    · rw [if_pos hji]
      exact ih i (fun k hk => H k (List.mem_cons_of_mem j hk))
    · rw [if_neg hji]
      obtain ⟨hlen, hg1, hg2⟩ := H j (List.mem_cons_self j js)
      have hrec := ih (j + 2) (fun k hk => H k (List.mem_cons_of_mem j hk))
      have hsplit : tokens.drop i =
          (tokens.drop i).take (j - i) ++ p1 :: p2 :: tokens.drop (j + 2) := by
        have h1 : tokens.drop j = p1 :: tokens.drop (j + 1) := drop_eq_cons_of_get? hg1
        have h2 : tokens.drop (j + 1) = p2 :: tokens.drop (j + 2) := drop_eq_cons_of_get? hg2
        have h3 : (tokens.drop i).drop (j - i) = tokens.drop j := by
          rw [List.drop_drop]
          congr 1
          omega
        conv_lhs => rw [← List.take_append_drop (j - i) (tokens.drop i)]
        rw [h3, h1, h2]
      conv_lhs => rw [strConcat_append, strConcat_cons, hrec, String.data_append]
      conv_rhs => rw [hsplit, strConcat_append, strConcat_cons, strConcat_cons]
      simp [List.append_assoc]

/-- The accepted positions of the winning pair in `bpeStep` carry the pair's
tokens at their position. -/
theorem bpeStep_strConcat {codes : String × String → Option ℕ} {dropout : ℚ}
    {rs : ℕ → ℚ} {ctr : ℕ} {tokens newTokens : List String}
    (h : bpeStep codes dropout rs ctr tokens = some newTokens) :
    strConcat newTokens = strConcat tokens := by
  unfold bpeStep at h
  match hmp : minPair (candPairs codes dropout rs ctr 0 tokens) with
  | none => rw [hmp] at h; exact absurd h (by simp)
  | some m =>
    rw [hmp] at h
    have hnew := Option.some.inj h
    have H : ∀ j ∈ (candPairs codes dropout rs ctr 0 tokens).filterMap
        (fun x => if x.2.2 = m.2.2 then some x.2.1 else none),
        j + 2 ≤ tokens.length ∧
        tokens.get? j = some m.2.2.1 ∧ tokens.get? (j + 1) = some m.2.2.2 := by
      intro j hj
      obtain ⟨x, hx, hxj⟩ := List.mem_filterMap.mp hj
      by_cases hpr : x.2.2 = m.2.2
      · rw [if_pos hpr] at hxj
        have hj' := Option.some.inj hxj
        obtain ⟨k, hk1, hk2, hk3, hk4⟩ := candPairs_spec codes dropout rs ctr tokens 0 x hx
        have hkj : k = j := by omega
        subst hkj
        exact ⟨hk2, by rw [hk3, hpr], by rw [hk4, hpr]⟩
      · rw [if_neg hpr] at hxj; exact absurd hxj (by simp)
    calc strConcat newTokens
        = strConcat (applyMerges tokens (m.2.2.1 ++ m.2.2.2)
            ((candPairs codes dropout rs ctr 0 tokens).filterMap
              (fun x => if x.2.2 = m.2.2 then some x.2.1 else none)) 0) := by rw [hnew]
      _ = strConcat (tokens.drop 0) := applyMerges_strConcat tokens m.2.2.1 m.2.2.2 _ 0 H
      _ = strConcat tokens := by rw [List.drop_zero]

/-- The whole merge loop only concatenates characters. -/
theorem bpeLoop_strConcat (codes : String × String → Option ℕ) (dropout : ℚ)
    (rs : ℕ → ℚ) : ∀ (fuel : ℕ) (tokens : List String) (ctr : ℕ),
    strConcat (bpeLoop codes dropout rs fuel tokens ctr) = strConcat tokens := by
  intro fuel
  induction fuel with
  | zero => intro tokens ctr; rfl
  | succ fuel ih =>
    intro tokens ctr
    rw [bpeLoop]
    by_cases hl : 1 < tokens.length
    · rw [if_pos hl]
      match hst : bpeStep codes dropout rs ctr tokens with
      | none => rfl
      | some newTokens =>
        rw [ih]
        exact bpeStep_strConcat hst
    · rw [if_neg hl]

theorem applyMerges_length_le (tokens : List String) (bigram : String) :
    ∀ (positions : List ℕ) (i : ℕ),
    (∀ j ∈ positions, j + 2 ≤ tokens.length) →
    (applyMerges tokens bigram positions i).length ≤ tokens.length - i := by
  intro positions
  induction positions with
  | nil => intro i _; simp [applyMerges]
  | cons j js ih =>
    intro i H
    rw [applyMerges]
    by_cases hji : j < i
    · rw [if_pos hji]
      exact ih i (fun k hk => H k (List.mem_cons_of_mem j hk))
    · rw [if_neg hji]
      have hlen := H j (List.mem_cons_self j js)
      have hrec := ih (j + 2) (fun k hk => H k (List.mem_cons_of_mem j hk))
      simp only [List.length_append, List.length_cons, List.length_take, List.length_drop]
      omega

/-- A pass with at least one accepted position strictly shrinks the token
sequence. -/
theorem applyMerges_length_lt (tokens : List String) (bigram : String)
    (j : ℕ) (js : List ℕ)
    (H : ∀ k ∈ j :: js, k + 2 ≤ tokens.length) :
    (applyMerges tokens bigram (j :: js) 0).length < tokens.length := by
  rw [applyMerges]
  rw [if_neg (by omega)]
  have hlen := H j (List.mem_cons_self j js)
  have hrec := applyMerges_length_le tokens bigram js (j + 2)
    (fun k hk => H k (List.mem_cons_of_mem j hk))
  simp only [List.length_append, List.length_cons, List.length_take, List.length_drop,
    List.drop_zero]
  omega

theorem bpeStep_length_lt {codes : String × String → Option ℕ} {dropout : ℚ}
    {rs : ℕ → ℚ} {ctr : ℕ} {tokens newTokens : List String}
    (h : bpeStep codes dropout rs ctr tokens = some newTokens) :
    newTokens.length < tokens.length := by
  unfold bpeStep at h
  match hmp : minPair (candPairs codes dropout rs ctr 0 tokens) with
  | none => rw [hmp] at h; exact absurd h (by simp)
  | some m =>
    rw [hmp] at h
    have hnew := Option.some.inj h
    have hmem := minPair_mem hmp
    have hpos : m.2.1 ∈ (candPairs codes dropout rs ctr 0 tokens).filterMap
        (fun x => if x.2.2 = m.2.2 then some x.2.1 else none) :=
      List.mem_filterMap.mpr ⟨m, hmem, by rw [if_pos rfl]⟩
    have H : ∀ k ∈ (candPairs codes dropout rs ctr 0 tokens).filterMap
        (fun x => if x.2.2 = m.2.2 then some x.2.1 else none), k + 2 ≤ tokens.length := by
      intro k hk
      obtain ⟨x, hx, hxk⟩ := List.mem_filterMap.mp hk
      by_cases hpr : x.2.2 = m.2.2
      · rw [if_pos hpr] at hxk
        have := Option.some.inj hxk
        obtain ⟨k', hk1, hk2, _, _⟩ := candPairs_spec codes dropout rs ctr tokens 0 x hx
        omega
      · rw [if_neg hpr] at hxk; exact absurd hxk (by simp)
    match hps : (candPairs codes dropout rs ctr 0 tokens).filterMap
        (fun x => if x.2.2 = m.2.2 then some x.2.1 else none) with
    | [] => rw [hps] at hpos; exact absurd hpos (by simp)
    | j :: js =>
      rw [hps] at hnew H
      rw [← hnew]
      exact applyMerges_length_lt tokens (m.2.2.1 ++ m.2.2.2) j js H

/-- One unit of fuel beyond the sequence length is never used: the fueled
loop is the unbounded while-loop. -/
theorem bpeLoop_fuel_succ (codes : String × String → Option ℕ) (dropout : ℚ)
    (rs : ℕ → ℚ) : ∀ (fuel : ℕ) (tokens : List String) (ctr : ℕ),
    tokens.length ≤ fuel →
    bpeLoop codes dropout rs (fuel + 1) tokens ctr = bpeLoop codes dropout rs fuel tokens ctr := by
  intro fuel
  induction fuel with
  | zero =>
    intro tokens ctr hle
    rw [bpeLoop, bpeLoop, if_neg (by omega)]
  | succ fuel ih =>
    intro tokens ctr hle
    conv_lhs => rw [bpeLoop]
    conv_rhs => rw [bpeLoop]
    by_cases hl : 1 < tokens.length
    · rw [if_pos hl, if_pos hl]
      match hst : bpeStep codes dropout rs ctr tokens with
      | none => rfl
      | some newTokens =>
        have hlt := bpeStep_length_lt hst
        exact ih newTokens _ (by omega)
    · rw [if_neg hl, if_neg hl]

/-- Any fuel at least the token count gives the same result as fuel exactly
the token count, so `smilesCall`'s choice of fuel computes the while-loop's
limit. -/
theorem bpeLoop_fuel_stable (codes : String × String → Option ℕ) (dropout : ℚ)
    (rs : ℕ → ℚ) : ∀ (k : ℕ) (tokens : List String) (ctr : ℕ),
    bpeLoop codes dropout rs (tokens.length + k) tokens ctr =
      bpeLoop codes dropout rs tokens.length tokens ctr := by
  intro k
  induction k with
  | zero => intro tokens ctr; rfl
  | succ k ih =>
    intro tokens ctr
    have := bpeLoop_fuel_succ codes dropout rs (tokens.length + k) tokens ctr (by omega)
    rw [show tokens.length + (k + 1) = tokens.length + k + 1 by omega, this, ih]

theorem lookup_append_of_some {idx : List (String × ℕ)} {t : String} {i : ℕ}
    (h : idx.lookup t = some i) (rest : List (String × ℕ)) :
    (idx ++ rest).lookup t = some i := by
  induction idx with
  | nil => simp [List.lookup] at h
  | cons p idx ih =>
    rw [List.cons_append, List.lookup]
    rw [List.lookup] at h
    by_cases hb : (t == p.1) = true
    · rw [hb] at h ⊢; exact h
    · have heq : (t == p.1) = false := by simpa using hb
      rw [heq] at h ⊢; exact ih h

/-- The registration loop: capacity bound. -/
theorem updateTokensGo_length_le (tokenSize : ℕ) :
    ∀ (ts toks : List String) (idx : List (String × ℕ)),
    toks.length ≤ tokenSize →
    (updateTokensGo tokenSize ts toks idx).1.length ≤ tokenSize := by
  intro ts
  induction ts with
  | nil => intro toks idx h; exact h
  | cons t ts ih =>
    intro toks idx h
    rw [updateTokensGo]
    by_cases h1 : (idx.lookup t).isSome
    · rw [if_pos h1]; exact ih toks idx h
    · rw [if_neg h1]
      by_cases h2 : tokenSize ≤ toks.length
      · rw [if_pos h2]; exact h
      · rw [if_neg h2]
        exact ih _ _ (by simp only [List.length_append, List.length_cons, List.length_nil]; omega)

/-- The registration loop only appends to the token list. -/
theorem updateTokensGo_tokens_grow (tokenSize : ℕ) :
    ∀ (ts toks : List String) (idx : List (String × ℕ)),
    ∃ ext, (updateTokensGo tokenSize ts toks idx).1 = toks ++ ext := by
  intro ts
  induction ts with
  | nil => intro toks idx; exact ⟨[], by simp [updateTokensGo]⟩
  | cons t ts ih =>
    intro toks idx
    rw [updateTokensGo]
    by_cases h1 : (idx.lookup t).isSome
    · rw [if_pos h1]; exact ih toks idx
    · rw [if_neg h1]
      by_cases h2 : tokenSize ≤ toks.length
      · rw [if_pos h2]; exact ⟨[], by simp⟩
      · rw [if_neg h2]
        obtain ⟨ext, hext⟩ := ih (toks ++ [t]) (idx ++ [(t, toks.length)])
        exact ⟨[t] ++ ext, by rw [hext, List.append_assoc]⟩

/-- The registration loop never changes an already assigned identifier. -/
theorem updateTokensGo_lookup_mono (tokenSize : ℕ) :
    ∀ (ts toks : List String) (idx : List (String × ℕ)) (t : String) (i : ℕ),
    idx.lookup t = some i →
    (updateTokensGo tokenSize ts toks idx).2.lookup t = some i := by
  intro ts
  induction ts with
  | nil => intro toks idx t i h; exact h
  | cons t' ts ih =>
    intro toks idx t i h
    rw [updateTokensGo]
    by_cases h1 : (idx.lookup t').isSome
    · rw [if_pos h1]; exact ih toks idx t i h
    · rw [if_neg h1]
      by_cases h2 : tokenSize ≤ toks.length
      · rw [if_pos h2]; exact h
      · rw [if_neg h2]
        exact ih _ _ t i (lookup_append_of_some h _)

theorem tkzStep_refl (a : MoltxTokenizer) : TkzStep a a :=
  ⟨rfl, ⟨[], by simp⟩, fun _ _ h => h, fun h => h⟩

theorem tkzStep_trans {a b c : MoltxTokenizer} (h1 : TkzStep a b) (h2 : TkzStep b c) :
    TkzStep a c := by
  obtain ⟨hs1, ⟨e1, he1⟩, hl1, hc1⟩ := h1
  obtain ⟨hs2, ⟨e2, he2⟩, hl2, hc2⟩ := h2
  exact ⟨hs2.trans hs1, ⟨e1 ++ e2, by rw [he2, he1, List.append_assoc]⟩,
    fun t i h => hl2 t i (hl1 t i h), fun h => hc2 (hc1 h)⟩

theorem updateTokens_step (tkz : MoltxTokenizer) (ts : List String) :
    TkzStep tkz (tkz.updateTokens ts) := by
  unfold MoltxTokenizer.updateTokens
  by_cases hf : tkz.freeze = true
  · rw [if_pos hf]; exact tkzStep_refl tkz
  · rw [if_neg hf]
    refine ⟨rfl, updateTokensGo_tokens_grow _ _ _ _, ?_, ?_⟩
    · intro t i h
      exact updateTokensGo_lookup_mono _ _ _ _ t i h
    · intro h
      exact updateTokensGo_length_le _ _ _ _ h

theorem loadTokens_step (tkz : MoltxTokenizer) (ts : List String) :
    TkzStep tkz (tkz.loadTokens ts) := by
  unfold MoltxTokenizer.loadTokens MoltxTokenizer.updateTokens
  simp only [Bool.false_eq_true, if_false, if_neg]
  refine ⟨rfl, updateTokensGo_tokens_grow _ _ _ _, ?_, ?_⟩
  · intro t i h
    exact updateTokensGo_lookup_mono _ _ _ _ t i h
  · intro h
    exact updateTokensGo_length_le _ _ _ _ h

theorem applyOp_step (rs : ℕ → ℚ) (tkz : MoltxTokenizer) (op : TkzOp) :
    TkzStep tkz (applyOp rs tkz op) := by
  match op with
  | .update ts => exact updateTokens_step tkz ts
  | .call s => exact updateTokens_step tkz (moltxEncode tkz rs s)
  | .load ts => exact loadTokens_step tkz ts

theorem applyOps_step (rs : ℕ → ℚ) :
    ∀ (ops : List TkzOp) (tkz : MoltxTokenizer), TkzStep tkz (applyOps rs tkz ops) := by
  intro ops
  induction ops with
  | nil => intro tkz; exact tkzStep_refl tkz
  | cons op ops ih =>
    intro tkz
    exact tkzStep_trans (applyOp_step rs tkz op) (ih (applyOp rs tkz op))

theorem moltxNew_length_le (tokenSize : ℕ) (freeze : Bool) (dropout : ℚ)
    (codes : String × String → Option ℕ) :
    (moltxNew tokenSize freeze dropout codes).tokens.length ≤ tokenSize ∧
    (moltxNew tokenSize freeze dropout codes).tokenSize = tokenSize := by
  unfold moltxNew
  have hstep := updateTokens_step (MoltxTokenizer.mk [] [] tokenSize freeze codes dropout)
    reservedTokens
  obtain ⟨hs, _, _, hc⟩ := hstep
  exact ⟨by simpa [hs] using hc (by simp), hs⟩

theorem strConcat_map_mk : ∀ (l : List (List Char)),
    strConcat (l.map String.mk) = l.flatten := by
  intro l
  induction l with
  | nil => rfl
  | cons a l ih =>
    rw [List.map_cons, strConcat_cons, List.flatten_cons, ih]

/-- With dropout at least one and all draws below one, no pair is ever a
candidate. -/
theorem candPairs_eq_nil {codes : String × String → Option ℕ} {dropout : ℚ}
    {rs : ℕ → ℚ} (h1 : 1 ≤ dropout) (h2 : ∀ n, rs n < 1) (ctr : ℕ) :
    ∀ (ts : List String) (i : ℕ), candPairs codes dropout rs ctr i ts = [] := by
  intro ts
  induction ts with
  | nil => intro i; rfl
  | cons a ts ih =>
    intro i
    match ts with
    | [] => rfl
    | b :: rest =>
      have hne : ¬ dropout = 0 := by intro h0; rw [h0] at h1; norm_num at h1
      have hnl : ¬ dropout < rs (ctr + i) := by
        have := h2 (ctr + i)
        intro hlt
        linarith
      have hg : (decide (dropout = 0) || decide (dropout < rs (ctr + i))) = false := by
        rw [decide_eq_false hne, decide_eq_false hnl]
        rfl
      rw [candPairs]
      simp only [hg, Bool.false_eq_true, if_false]
      exact ih (i + 1)

/-- With dropout at least one and all draws below one, the merge loop returns
its input unchanged. -/
theorem bpeLoop_id_of_no_candidate {codes : String × String → Option ℕ} {dropout : ℚ}
    {rs : ℕ → ℚ} (h1 : 1 ≤ dropout) (h2 : ∀ n, rs n < 1) :
    ∀ (fuel : ℕ) (ts : List String) (ctr : ℕ),
    bpeLoop codes dropout rs fuel ts ctr = ts := by
  intro fuel
  induction fuel with
  | zero => intro ts ctr; rfl
  | succ fuel ih =>
    intro ts ctr
    have hstep : bpeStep codes dropout rs ctr ts = none := by
      unfold bpeStep
      rw [candPairs_eq_nil h1 h2 ctr ts 0]
      rfl
    rw [bpeLoop]
    by_cases hl : 1 < ts.length
    · rw [if_pos hl, hstep]
    · rw [if_neg hl]

theorem decodeTokens_none_of_mem {l : List String} :
    ∀ {idxs : List ℤ} {i : ℤ}, i ∈ idxs → pyIndex l i = none →
    decodeTokens l idxs = none := by
  intro idxs
  induction idxs with
  | nil => intro i h; simp at h
  | cons j js ih =>
    intro i hmem hnone
    rw [decodeTokens]
    rcases List.mem_cons.mp hmem with h | h
    · subst h
      rw [hnone]
    · rw [ih h hnone]
      cases pyIndex l j <;> rfl

theorem firstBadLine_some_of_bad : ∀ (items : List (List String)),
    (∃ item ∈ items, item.length ≠ 2) →
    ∃ i item, firstBadLine items = some i ∧ items.get? i = some item ∧ item.length ≠ 2 := by
  intro items
  induction items with
  | nil => intro h; simp at h
  | cons it rest ih =>
    intro h
    by_cases h2 : it.length = 2
    · have hrest : ∃ item ∈ rest, item.length ≠ 2 := by
        obtain ⟨x, hx, hxl⟩ := h
        rcases List.mem_cons.mp hx with rfl | hmem
        · exact absurd h2 hxl
        · exact ⟨x, hmem, hxl⟩
      obtain ⟨i, item, hf, hg, hl⟩ := ih hrest
      exact ⟨i + 1, item, by rw [firstBadLine, if_pos h2, hf]; rfl, by simpa using hg, hl⟩
    · exact ⟨0, it, by rw [firstBadLine, if_neg h2], by simp, h2⟩

/-- The construction with `freeze=False` and capacity at least six registers
exactly the reserved tokens at identifiers zero to five. -/
theorem moltxNew_reserved (N : ℕ) (dropout : ℚ) (codes : String × String → Option ℕ)
    (h : 6 ≤ N) :
    (moltxNew N false dropout codes).tokens = reservedTokens ∧
    (moltxNew N false dropout codes).tokenIdx =
      [("<pad>", 0), ("<unk>", 1), ("<bos>", 2), ("<eos>", 3), ("<sep>", 4), ("<cls>", 5)] := by
  obtain ⟨m, rfl⟩ : ∃ m, N = m + 6 := ⟨N - 6, by omega⟩
  have h0 : ¬ (m + 6 ≤ 0) := by omega
  have h1 : ¬ (m + 6 ≤ 1) := by omega
  have h2 : ¬ (m + 6 ≤ 2) := by omega
  have h3 : ¬ (m + 6 ≤ 3) := by omega
  have h4 : ¬ (m + 6 ≤ 4) := by omega
  have h5 : ¬ (m + 6 ≤ 5) := by omega
  constructor <;>
    simp [moltxNew, MoltxTokenizer.updateTokens, reservedTokens, updateTokensGo,
      List.lookup, h0, h1, h2, h3, h4, h5]

theorem atomwiseCall_none (s : String) :
    atomwiseCall none s = (atomwiseTokens s.data).map String.mk := rfl

/-! ### Claim theorems -/

/-- Claim C1, counterexample: on the single out-of-grammar character input
`x`, `SmilesTokenizer.__call__` returns the character verbatim through the
length-one bypass, while the input with the unmatched characters removed is
empty — so the concatenation property fails as universally stated. -/
theorem claimC1_cex :
    ¬ (strConcat (smilesCall none (fun _ => none) 0 (fun _ => 0) "x") =
        removeUnmatched (String.data "x")) := by
  decide

/-- Claim C1, amended: for every merge table, dropout setting and draw
stream, and every input that is not a single character, the concatenation of
the tokens produced by `SmilesTokenizer.__call__` equals the input with the
characters matching no alternative of the splitter's grammar removed (and
those kept characters form a subsequence of the input); a single-character
input is returned verbatim by the bypass, even when it is out of grammar. -/
theorem claimC1 (codes : String × String → Option ℕ) (dropout : ℚ) (rs : ℕ → ℚ)
    (s : String) :
    (s.length ≠ 1 →
      strConcat (smilesCall none codes dropout rs s) = removeUnmatched s.data ∧
      (removeUnmatched s.data).Sublist s.data) ∧
    (s.length = 1 → smilesCall none codes dropout rs s = [s]) := by
  constructor
  · intro h
    constructor
    · unfold smilesCall
      rw [if_neg h, bpeLoop_strConcat, atomwiseCall_none, strConcat_map_mk]
      unfold atomwiseTokens removeUnmatched
      exact findallAux_flatten s.data.length s.data
    · exact removeUnmatchedAux_sublist s.data.length s.data
  · intro h
    unfold smilesCall
    rw [if_pos h]

/-- Claim C1, witness: a run with a merge that fires (rank-zero pair
`(C, C)`, dropout zero) on the input `CC(=O)`. -/
theorem claimC1_witness :
    strConcat (smilesCall none (fun p => if p = ("C", "C") then some 0 else none) 0
        (fun _ => 0) "CC(=O)") = removeUnmatched (String.data "CC(=O)") ∧
    (removeUnmatched (String.data "CC(=O)")).Sublist (String.data "CC(=O)") :=
  (claimC1 (fun p => if p = ("C", "C") then some 0 else none) 0 (fun _ => 0) "CC(=O)").1
    (by decide)

/-- Claim C2, counterexample: constructed with `freeze=True`, the tokenizer
registers nothing — the reserved tokens do not occupy identifiers 0..5 and
the unk token has no identifier at all. -/
theorem claimC2_cex :
    (moltxNew 512 true 0 (fun _ => none)).tokens = [] ∧
    (moltxNew 512 true 0 (fun _ => none)).tokenIdx.lookup "<unk>" = none :=
  ⟨rfl, rfl⟩

/-- Claim C2, amended: after construction with `freeze=False` and capacity at
least six, the six reserved tokens occupy identifiers 0..5 in the fixed order
`(pad, unk, bos, eos, sep, cls)`, and identifier 1 is the unk token; with
`freeze=True` the initial `_update_tokens(reserved)` is a no-op and the
vocabulary stays empty. -/
theorem claimC2 (N : ℕ) (dropout : ℚ) (codes : String × String → Option ℕ)
    (h : 6 ≤ N) :
    (moltxNew N false dropout codes).tokens = reservedTokens ∧
    (moltxNew N false dropout codes).tokenIdx =
      [("<pad>", 0), ("<unk>", 1), ("<bos>", 2), ("<eos>", 3), ("<sep>", 4), ("<cls>", 5)] ∧
    (moltxNew N false dropout codes).tokenIdx.lookup "<unk>" = some 1 ∧
    (moltxNew N true dropout codes).tokens = [] := by
  obtain ⟨ht, hidx⟩ := moltxNew_reserved N dropout codes h
  refine ⟨ht, hidx, ?_, rfl⟩
  rw [hidx]
  rfl

/-- Claim C2, witness: the amended statement at the default capacity 512. -/
theorem claimC2_witness :
    (moltxNew 512 false 0 (fun _ => none)).tokens = reservedTokens ∧
    (moltxNew 512 false 0 (fun _ => none)).tokenIdx =
      [("<pad>", 0), ("<unk>", 1), ("<bos>", 2), ("<eos>", 3), ("<sep>", 4), ("<cls>", 5)] ∧
    (moltxNew 512 false 0 (fun _ => none)).tokenIdx.lookup "<unk>" = some 1 ∧
    (moltxNew 512 true 0 (fun _ => none)).tokens = [] :=
  claimC2 512 0 (fun _ => none) (by omega)

/-- Claim C3 (confirmed): starting from any construction, after any sequence
of registration entry points (`_update_tokens`, `__call__`, `load`) the
vocabulary size never exceeds the capacity, and across any further sequence
of such calls the token list only grows at the end and every assigned
identifier persists unchanged. -/
theorem claimC3 (rs : ℕ → ℚ) (N : ℕ) (fz : Bool) (d : ℚ)
    (codes : String × String → Option ℕ) (ops more : List TkzOp) :
    (applyOps rs (moltxNew N fz d codes) ops).tokens.length ≤ N ∧
    (∃ ext, (applyOps rs (applyOps rs (moltxNew N fz d codes) ops) more).tokens =
      (applyOps rs (moltxNew N fz d codes) ops).tokens ++ ext) ∧
    (∀ t i, (applyOps rs (moltxNew N fz d codes) ops).tokenIdx.lookup t = some i →
      (applyOps rs (applyOps rs (moltxNew N fz d codes) ops) more).tokenIdx.lookup t =
        some i) := by
  obtain ⟨hlen0, hsz0⟩ := moltxNew_length_le N fz d codes
  obtain ⟨hs1, hg1, hl1, hc1⟩ := applyOps_step rs ops (moltxNew N fz d codes)
  obtain ⟨hs2, hg2, hl2, hc2⟩ :=
    applyOps_step rs more (applyOps rs (moltxNew N fz d codes) ops)
  refine ⟨?_, hg2, hl2⟩
  have hb := hc1 (by rw [hsz0]; exact hlen0)
  rw [hs1, hsz0] at hb
  exact hb

/-- Claim C3, witness: a registered token keeps its identifier across a later
registration call. -/
theorem claimC3_witness :
    (applyOps (fun _ => 0) (applyOps (fun _ => 0) (moltxNew 512 false 0 (fun _ => none))
      [TkzOp.update ["C"]]) [TkzOp.update ["O"]]).tokenIdx.lookup "C" = some 6 :=
  (claimC3 (fun _ => 0) 512 false 0 (fun _ => none) [TkzOp.update ["C"]]
    [TkzOp.update ["O"]]).2.2 "C" 6 (by decide)

/-- Claim C4 (confirmed): on `[x, x, x]` with `(x, x)` at rank 0 and dropout
zero, the merge loop yields `[xx, x]` — the overlapping occurrence starting
inside the consumed span is skipped — and never `[x, xx]` or `[xxx]`. -/
theorem claimC4 (rs : ℕ → ℚ) :
    bpeLoop (fun p => if p = ("x", "x") then some 0 else none) 0 rs 3 ["x", "x", "x"] 0 =
      ["xx", "x"] ∧
    bpeLoop (fun p => if p = ("x", "x") then some 0 else none) 0 rs 3 ["x", "x", "x"] 0 ≠
      ["x", "xx"] ∧
    bpeLoop (fun p => if p = ("x", "x") then some 0 else none) 0 rs 3 ["x", "x", "x"] 0 ≠
      ["xxx"] := by
  have h : bpeLoop (fun p => if p = ("x", "x") then some 0 else none) 0 rs 3
      ["x", "x", "x"] 0 = ["xx", "x"] := rfl
  exact ⟨h, by rw [h]; decide, by rw [h]; decide⟩

/-- Claim C5 (confirmed): for any one-character input, any configuration and
any merge table, `SmilesTokenizer.__call__` returns the single-token sequence
holding the input unchanged (the bypass before the splitter). -/
theorem claimC5 (exclusive : Option (List String)) (codes : String × String → Option ℕ)
    (dropout : ℚ) (rs : ℕ → ℚ) (c : Char) :
    smilesCall exclusive codes dropout rs (String.mk [c]) = [String.mk [c]] := by
  unfold smilesCall
  rw [if_pos (show (String.mk [c]).length = 1 from rfl)]

/-- Claim C6, counterexample: on a tokenizer constructed with `freeze=True`
the unk token itself is unregistered, and the eagerly evaluated default
`self._token_idx[self.unk]` of `__getitem__` raises a `KeyError` (modelled as
`none`) for every string key — the lookup is not total. -/
theorem claimC6_cex : (moltxNew 512 true 0 (fun _ => none)).getitemStr "C" = none := rfl

/-- Claim C6, amended: on every tokenizer state whose table contains the unk
token (as any `freeze=False` construction with capacity at least two does),
the string lookup never errors: it returns the assigned identifier of a
registered token and the unk identifier otherwise.  When unk is missing
(e.g. fresh `freeze=True` construction) the lookup raises instead. -/
theorem claimC6 (tkz : MoltxTokenizer) (u : ℕ)
    (h : tkz.tokenIdx.lookup "<unk>" = some u) (t : String) :
    (∀ i, tkz.tokenIdx.lookup t = some i → tkz.getitemStr t = some i) ∧
    (tkz.tokenIdx.lookup t = none → tkz.getitemStr t = some u) := by
  unfold MoltxTokenizer.getitemStr
  rw [h]
  constructor
  · intro i hi
    rw [hi]
    rfl
  · intro hn
    rw [hn]
    rfl

/-- Claim C6, witness: a default-capacity tokenizer maps a registered token
to its identifier and an unknown token to the unk identifier 1. -/
theorem claimC6_witness :
    (moltxNew 512 false 0 (fun _ => none)).getitemStr "<bos>" = some 2 ∧
    (moltxNew 512 false 0 (fun _ => none)).getitemStr "zzz" = some 1 :=
  ⟨(claimC6 (moltxNew 512 false 0 (fun _ => none)) 1 (by decide) "<bos>").1 2 (by decide),
   (claimC6 (moltxNew 512 false 0 (fun _ => none)) 1 (by decide) "zzz").2 (by decide)⟩

/-- Claim C7 (confirmed): for every identifier at least the vocabulary size,
the integer lookup and a decode of any list containing it fail with an
out-of-range error (no fallback); for an identifier in `[0, size)` the lookup
returns the token stored at that identifier. -/
theorem claimC7 (tkz : MoltxTokenizer) (i : ℤ) :
    ((tkz.tokens.length : ℤ) ≤ i →
      tkz.getitemInt i = none ∧ ∀ idxs : List ℤ, i ∈ idxs → tkz.decode idxs = none) ∧
    (∀ h0 : 0 ≤ i, ∀ hlt : i.toNat < tkz.tokens.length,
      tkz.getitemInt i = some (tkz.tokens.get ⟨i.toNat, hlt⟩)) := by
  constructor
  · intro hge
    have h0 : 0 ≤ i := by omega
    have hnone : pyIndex tkz.tokens i = none := by
      unfold pyIndex
      rw [if_pos h0]
      exact List.get?_eq_none.mpr (by omega)
    refine ⟨hnone, ?_⟩
    intro idxs hmem
    unfold MoltxTokenizer.decode
    rw [decodeTokens_none_of_mem hmem hnone]
    rfl
  · intro h0 hlt
    unfold MoltxTokenizer.getitemInt pyIndex
    rw [if_pos h0]
    exact List.get?_eq_get hlt

/-- Claim C7, witness: on a fresh default tokenizer (size six), identifier 10
fails alone and inside a decode, and identifier 2 resolves. -/
theorem claimC7_witness :
    (moltxNew 512 false 0 (fun _ => none)).getitemInt 10 = none ∧
    (moltxNew 512 false 0 (fun _ => none)).decode [0, 10] = none ∧
    (moltxNew 512 false 0 (fun _ => none)).getitemInt 2 =
      some ((moltxNew 512 false 0 (fun _ => none)).tokens.get ⟨2, by decide⟩) :=
  ⟨((claimC7 (moltxNew 512 false 0 (fun _ => none)) 10).1 (by decide)).1,
   ((claimC7 (moltxNew 512 false 0 (fun _ => none)) 10).1 (by decide)).2 [0, 10] (by decide),
   (claimC7 (moltxNew 512 false 0 (fun _ => none)) 2).2 (by decide) (by decide)⟩

/-- Claim C8 (confirmed): if any retained, stripped and space-split
merge-table line has a field count other than two, construction raises a
fatal error carrying the index of an offending line, and the `bpe_codes`
mapping is still empty at that point (the table assignment only happens after
the whole validation loop). -/
theorem claimC8 (lines : List String) (merges : ℤ)
    (h : ∃ item ∈ parseCodes lines merges, item.length ≠ 2) :
    ∃ i, smilesTokenizerNew (some lines) merges = .error (i, []) ∧
      ∃ item, (parseCodes lines merges).get? i = some item ∧ item.length ≠ 2 := by
  obtain ⟨i, item, hf, hg, hl⟩ := firstBadLine_some_of_bad (parseCodes lines merges) h
  refine ⟨i, ?_, item, hg, hl⟩
  unfold smilesTokenizerNew
  dsimp only
  rw [hf]

/-- Claim C8, witness: the file `["a b", "c"]` fails at line index 1 with an
empty table. -/
theorem claimC8_witness :
    ∃ i, smilesTokenizerNew (some ["a b", "c"]) (-1) = .error (i, []) ∧
      ∃ item, (parseCodes ["a b", "c"] (-1)).get? i = some item ∧ item.length ≠ 2 :=
  claimC8 ["a b", "c"] (-1) (by decide)

/-- Claim C9 (confirmed): the default dropout of `MoltxTokenizer.__init__` is
`1.000000001`, strictly greater than one; under it the dropout test
`random.random() > dropout` never passes (draws are below one), so no pair is
ever accepted and every input of length at least two is split to atomic
tokens only, whatever the merge table holds. -/
theorem claimC9 (N : ℕ) (fz : Bool) (codes : String × String → Option ℕ) :
    moltxDefaultDropout = 1000000001 / 1000000000 ∧
    1 < moltxDefaultDropout ∧
    (moltxNewDefaultDropout N fz codes).speDropout = moltxDefaultDropout ∧
    ∀ (codes2 : String × String → Option ℕ) (rs : ℕ → ℚ) (s : String),
      (∀ n, rs n < 1) → 2 ≤ s.length →
      smilesCall none codes2 moltxDefaultDropout rs s = atomwiseCall none s := by
  have hgt : 1 < moltxDefaultDropout := by norm_num [moltxDefaultDropout]
  refine ⟨rfl, hgt, ?_, ?_⟩
  · unfold moltxNewDefaultDropout moltxNew MoltxTokenizer.updateTokens
    cases fz <;> rfl
  · intro codes2 rs s hrs hlen
    unfold smilesCall
    rw [if_neg (by omega)]
    exact bpeLoop_id_of_no_candidate (le_of_lt hgt) hrs _ _ 0

/-- Claim C9, witness: under the default dropout, `CC` stays `[C, C]` even
with `(C, C)` at rank zero in the merge table. -/
theorem claimC9_witness :
    smilesCall none (fun p => if p = ("C", "C") then some 0 else none) moltxDefaultDropout
      (fun _ => 1 / 2) "CC" = atomwiseCall none "CC" ∧
    atomwiseCall none "CC" = ["C", "C"] :=
  ⟨(claimC9 512 false (fun _ => none)).2.2.2 (fun p => if p = ("C", "C") then some 0 else none)
      (fun _ => 1 / 2) "CC" (fun n => by norm_num) (by decide), by decide⟩

/-- Claim C10 (confirmed): a negative identifier in `[-size, 0)` does not
fail: the integer lookup and decode silently return the token at position
`size + i`; the out-of-range error occurs exactly for `i ≥ size` or
`i < -size`. -/
theorem claimC10 (tkz : MoltxTokenizer) (i : ℤ) :
    (-(tkz.tokens.length : ℤ) ≤ i → i < 0 →
      ∃ tok, tkz.tokens.get? ((tkz.tokens.length : ℤ) + i).toNat = some tok ∧
        tkz.getitemInt i = some tok ∧ tkz.decode [i] = some tok) ∧
    (tkz.getitemInt i = none ↔
      ((tkz.tokens.length : ℤ) ≤ i ∨ i < -(tkz.tokens.length : ℤ))) := by
  constructor
  · intro hge hlt
    have hn0 : ¬ (0 ≤ i) := by omega
    have hj0 : 0 ≤ (tkz.tokens.length : ℤ) + i := by omega
    have hjlt : ((tkz.tokens.length : ℤ) + i).toNat < tkz.tokens.length := by omega
    have hpi : pyIndex tkz.tokens i =
        some (tkz.tokens.get ⟨((tkz.tokens.length : ℤ) + i).toNat, hjlt⟩) := by
      unfold pyIndex
      rw [if_neg hn0, if_pos hj0]
      exact List.get?_eq_get hjlt
    refine ⟨tkz.tokens.get ⟨((tkz.tokens.length : ℤ) + i).toNat, hjlt⟩,
      List.get?_eq_get hjlt, hpi, ?_⟩
    unfold MoltxTokenizer.decode
    rw [decodeTokens, hpi, decodeTokens]
    show some (String.mk (strConcat
        [tkz.tokens.get ⟨((tkz.tokens.length : ℤ) + i).toNat, hjlt⟩])) =
      some (tkz.tokens.get ⟨((tkz.tokens.length : ℤ) + i).toNat, hjlt⟩)
    rw [show strConcat [tkz.tokens.get ⟨((tkz.tokens.length : ℤ) + i).toNat, hjlt⟩] =
        (tkz.tokens.get ⟨((tkz.tokens.length : ℤ) + i).toNat, hjlt⟩).data by
      simp [strConcat]]
  · unfold MoltxTokenizer.getitemInt pyIndex
    by_cases h0 : 0 ≤ i
    · rw [if_pos h0]
      constructor
      · intro hn
        have := List.get?_eq_none.mp hn
        left
        omega
      · intro hor
        rcases hor with hle | hlt
        · exact List.get?_eq_none.mpr (by omega)
        · exact absurd hlt (by omega)
    · rw [if_neg h0]
      by_cases hj : 0 ≤ (tkz.tokens.length : ℤ) + i
      · rw [if_pos hj]
        have hjlt : ((tkz.tokens.length : ℤ) + i).toNat < tkz.tokens.length := by omega
        rw [List.get?_eq_get hjlt]
        constructor
        · intro hc
          exact absurd hc (by simp)
        · intro hor
          rcases hor with hle | hlt <;> [exact absurd hle (by omega); exact absurd hlt (by omega)]
      · rw [if_neg hj]
        constructor
        · intro _
          right
          omega
        · intro _
          rfl

/-- Claim C10, witness: on a fresh default tokenizer (size six), identifier
-1 resolves to the last token and identifier -7 is out of range. -/
theorem claimC10_witness :
    (∃ tok, (moltxNew 512 false 0 (fun _ => none)).tokens.get?
        (((moltxNew 512 false 0 (fun _ => none)).tokens.length : ℤ) + (-1)).toNat = some tok ∧
      (moltxNew 512 false 0 (fun _ => none)).getitemInt (-1) = some tok ∧
      (moltxNew 512 false 0 (fun _ => none)).decode [-1] = some tok) ∧
    ((moltxNew 512 false 0 (fun _ => none)).getitemInt (-7) = none ↔
      (((moltxNew 512 false 0 (fun _ => none)).tokens.length : ℤ) ≤ -7 ∨
        (-7 : ℤ) < -((moltxNew 512 false 0 (fun _ => none)).tokens.length : ℤ))) :=
  ⟨(claimC10 (moltxNew 512 false 0 (fun _ => none)) (-1)).1 (by decide) (by decide),
   (claimC10 (moltxNew 512 false 0 (fun _ => none)) (-7)).2⟩
